import Mathlib

/-!
HybridClrHookNative: the observer interface `clr.h`.

A verification development over the one source file of the repository,
`clr.h`. The header declares

* `union Arg`, the value carrier handed to observers,
* `class Obs`, the observer base class with its five descriptor fields, its
  constructor and two pure-virtual hooks,
* `HybridClrAddObs(Obs*)`, the registration entry point (declaration only).

The carrier is embedded at the level of its object representation: eight
bytes of storage in which every member starts at offset 0. Scalars are laid
out little-endian and signed integers are two's complement. Floating-point
members are carried as their IEEE-754 bit patterns; pointers as addresses.
-/

namespace HybridClr

/-! ## Target data models -/

/-- Data models the header can be compiled for: 32-bit with 4-byte alignment of
8-byte scalars (i386), 32-bit with natural alignment (ARM EABI), and 64-bit. -/
inductive ABI where
  | ilp32_a4
  | ilp32_a8
  | lp64
  deriving DecidableEq, Repr

/-- Bytes of a data pointer. -/
def ABI.ptrBytes : ABI → Nat
  | .ilp32_a4 => 4
  | .ilp32_a8 => 4
  | .lp64 => 8

/-- Alignment of an 8-byte scalar (`uint64_t`, `int64_t`, `double`). -/
def ABI.align8 : ABI → Nat
  | .ilp32_a4 => 4
  | .ilp32_a8 => 8
  | .lp64 => 8

/-! ## The declared types of `union Arg` -/

/-- What a pointer member of `union Arg` points to. -/
inductive Pointee where
  | void
  | Il2CppObject
  | Il2CppString
  | Il2CppObjectPtr
  deriving DecidableEq, Repr

/-- The C types occurring in `union Arg`. -/
inductive CType where
  | uint (bits : Nat)
  | sint (bits : Nat)
  | bool
  | float
  | double
  | ptr (pointee : Pointee)
  deriving DecidableEq, Repr

/-- Result of `sizeof` in bytes. -/
def CType.sizeof (abi : ABI) : CType → Nat
  | .uint bits => bits / 8
  | .sint bits => bits / 8
  | .bool => 1
  | .float => 4
  | .double => 8
  | .ptr _ => abi.ptrBytes

/-- Result of `alignof` in bytes. -/
def CType.alignof (abi : ABI) (t : CType) : Nat :=
  if t.sizeof abi = 8 then abi.align8 else t.sizeof abi

/-- The members of `union Arg`, in declaration order. -/
inductive Member where
  | __u64
  | ptr
  | b
  | i8
  | u8
  | i16
  | u16
  | i32
  | u32
  | i64
  | u64
  | f4
  | f8
  | obj
  | str
  | ptrObj
  deriving DecidableEq, Repr

/-- The declared type of each member. -/
def Member.ctype : Member → CType
  | .__u64 => .uint 64
  | .ptr => .ptr .void
  | .b => .bool
  | .i8 => .sint 8
  | .u8 => .uint 8
  | .i16 => .sint 16
  | .u16 => .uint 16
  | .i32 => .sint 32
  | .u32 => .uint 32
  | .i64 => .sint 64
  | .u64 => .uint 64
  | .f4 => .float
  | .f8 => .double
  | .obj => .ptr .Il2CppObject
  | .str => .ptr .Il2CppString
  | .ptrObj => .ptr .Il2CppObjectPtr

/-- All members of `union Arg`, in declaration order. -/
def Arg.members : List Member :=
  [.__u64, .ptr, .b, .i8, .u8, .i16, .u16, .i32, .u32, .i64, .u64, .f4, .f8, .obj, .str, .ptrObj]

/-- Bytes occupied by a member. -/
def Member.bytes (abi : ABI) (m : Member) : Nat := m.ctype.sizeof abi

/-- Width of a member in bits. -/
def Member.bits (abi : ABI) (m : Member) : Nat := 8 * m.bytes abi

/-- Offset of a member inside the union: every union member starts at 0. -/
def Member.offset (_m : Member) : Nat := 0

/-- Whether the member is a signed integer. -/
def Member.signed (m : Member) : Bool :=
  match m.ctype with
  | .sint _ => true
  | _ => false

/-- Round `n` up to a multiple of `a`. -/
def roundUp (n a : Nat) : Nat := (n + a - 1) / a * a

/-- Result of `sizeof(Arg)`: the widest member, rounded up to the strictest alignment. -/
def Arg.sizeof (abi : ABI) : Nat :=
  roundUp ((Arg.members.map (Member.bytes abi)).foldl max 0)
    ((Arg.members.map (fun m => m.ctype.alignof abi)).foldl max 1)

/-! ## Object representation -/

/-- Little-endian bytes of `v`, `k` of them. -/
def toLE : Nat → Nat → List Nat
  | 0, _ => []
  | k + 1, v => v % 256 :: toLE k (v / 256)

/-- Value of a little-endian byte sequence. -/
def fromLE : List Nat → Nat
  | [] => 0
  | b :: bs => b + 256 * fromLE bs

/-- One value carrier: the bytes of its storage. -/
structure Arg where
  bytes : List Nat
  deriving DecidableEq, Repr

/-- The values of a member's type, as mathematical integers: `false`/`true` are 0/1,
signed members range over the two's-complement interval, unsigned members, IEEE bit
patterns and addresses over the naturals below `2 ^ bits`. -/
def Member.valid (abi : ABI) (m : Member) (v : Int) : Prop :=
  match m.ctype with
  | .bool => 0 ≤ v ∧ v ≤ 1
  | .sint bits => -(2 : Int) ^ (bits - 1) ≤ v ∧ v < (2 : Int) ^ (bits - 1)
  | _ => 0 ≤ v ∧ v < (2 : Int) ^ m.bits abi

instance (abi : ABI) (m : Member) (v : Int) : Decidable (m.valid abi v) := by
  unfold Member.valid
  split <;> infer_instance

/-- Object representation of `v` in a member of `m`'s type, as an unsigned number. -/
def Member.encode (abi : ABI) (m : Member) (v : Int) : Nat :=
  (v % (2 : Int) ^ m.bits abi).toNat

/-- Value denoted by the unsigned number `u` read from a member of `m`'s type. -/
def Member.decode (abi : ABI) (m : Member) (u : Nat) : Int :=
  if m.signed ∧ 2 ^ (m.bits abi - 1) ≤ u then (u : Int) - (2 : Int) ^ m.bits abi else (u : Int)

/-- Assignment `a.m = v`: overwrites the first `sizeof m` bytes of the storage. -/
def Arg.store (abi : ABI) (m : Member) (v : Int) (a : Arg) : Arg :=
  ⟨toLE (m.bytes abi) (m.encode abi v) ++ a.bytes.drop (m.bytes abi)⟩

/-- Read of `a.m`: interprets the first `sizeof m` bytes of the storage. -/
def Arg.load (abi : ABI) (m : Member) (a : Arg) : Int :=
  m.decode abi (fromLE (a.bytes.take (m.bytes abi)))

/-- Object representation of a `bool`. -/
def boolVal (b : Bool) : Int := if b then 1 else 0

/-- The IEEE-754 binary64 pattern with the given sign, biased exponent and fraction. -/
def ieee64 (sign : Bool) (exponent fraction : Nat) : Int :=
  ((if sign then 2 ^ 63 else 0) + exponent * 2 ^ 52 + fraction : Nat)

/-- An array of carriers (`Arg *args` with `argCount` elements). -/
abbrev ArgArray := List Arg

/-- Assignment `args[i].m = v`. -/
def ArgArray.storeAt (abi : ABI) (args : ArgArray) (i : Nat) (m : Member) (v : Int) : ArgArray :=
  match args[i]? with
  | some a => args.set i (a.store abi m v)
  | none => args

/-- Read of `args[j].m`. -/
def ArgArray.loadAt (abi : ABI) (args : ArgArray) (j : Nat) (m : Member) : Option Int :=
  (args[j]?).map (Arg.load abi m)

/-- A carrier of the size `sizeof(Arg)` gives on every data model. -/
def Arg.wf (a : Arg) : Prop := a.bytes.length = 8

instance (a : Arg) : Decidable a.wf := by
  unfold Arg.wf
  infer_instance

/-- Members narrower than the carrier on every data model. -/
def Arg.narrowMembers : List Member := [.b, .i8, .u8, .i16, .u16, .i32, .u32, .f4]

/-- The signed integer members, each with the unsigned member of the same width. -/
def Arg.signednessPairs : List (Member × Member) :=
  [(.i8, .u8), (.i16, .u16), (.i32, .u32), (.i64, .u64)]

/-! ### The kinds the data model lists for the carrier -/

/-- Kinds of value the carrier is documented to cover. -/
inductive CarrierKind where
  | scratch64
  | rawPointer
  | boolean
  | signedInt (width : Nat)
  | unsignedInt (width : Nat)
  | floating (width : Nat)
  | objectRef
  | stringRef
  | refToRef
  deriving DecidableEq, Repr

/-- The documented list: 64-bit unsigned scratch, raw pointer, boolean, signed and unsigned
integers of width 8/16/32/64, 32- and 64-bit floating point, managed object, managed
string, reference-to-reference. -/
def CarrierKind.documented : List CarrierKind :=
  [.scratch64, .rawPointer, .boolean,
   .signedInt 8, .signedInt 16, .signedInt 32, .signedInt 64,
   .unsignedInt 8, .unsignedInt 16, .unsignedInt 32, .unsignedInt 64,
   .floating 32, .floating 64, .objectRef, .stringRef, .refToRef]

/-- The C type that realises a documented kind. -/
def CarrierKind.ctype : CarrierKind → CType
  | .scratch64 => .uint 64
  | .rawPointer => .ptr .void
  | .boolean => .bool
  | .signedInt w => .sint w
  | .unsignedInt w => .uint w
  | .floating w => if w = 32 then .float else .double
  | .objectRef => .ptr .Il2CppObject
  | .stringRef => .ptr .Il2CppString
  | .refToRef => .ptr .Il2CppObjectPtr

/-! ## Memory and C strings -/

/-- A `const char *`: an address; 0 is the null pointer. -/
abbrev CharPtr := Nat

/-- Byte-addressed storage holding the caller's strings; the address is the index.
Observer objects are distinct objects and are not part of it. -/
abbrev Mem := List Nat

/-- One byte store into memory. -/
def Mem.write (m : Mem) (addr byte : Nat) : Mem := m.set addr byte

/-- The bytes before the first NUL, when there is one. -/
def cstrOf : List Nat → Option (List Nat)
  | [] => none
  | c :: rest => if c = 0 then some [] else (cstrOf rest).map (c :: ·)

/-- Number of bytes a scan for the terminator passes over before it stops. -/
def scanLen : List Nat → Nat
  | [] => 0
  | c :: rest => if c = 0 then 0 else scanLen rest + 1

/-- The NUL-terminated string a `const char *` denotes in memory `m`. -/
def cstr (m : Mem) (p : Nat) : Option (List Nat) :=
  if p = 0 then none else cstrOf (m.drop p)

/-- Whether address `a` lies within the string at `p`, terminator included. -/
def inString (m : Mem) (p a : Nat) : Prop :=
  p ≤ a ∧ a ≤ p + scanLen (m.drop p)

instance (m : Mem) (p a : Nat) : Decidable (inString m p a) := by
  unfold inString
  infer_instance

/-! ## `class Obs` -/

/-- The data members of `class Obs`. -/
structure Obs where
  dll_Name : CharPtr
  name_space : CharPtr
  className : CharPtr
  methodName : CharPtr
  methodCount : Int
  deriving DecidableEq, Repr

/-- The constructor `Obs::Obs`: five assignments to the members of `this`, whose
storage holds indeterminate values on entry. -/
def Obs.ctor (this : Obs) (dllName name_space className methodName : CharPtr)
    (methodCount : Int) : Obs :=
  let this := { this with dll_Name := dllName }
  let this := { this with name_space := name_space }
  let this := { this with className := className }
  let this := { this with methodName := methodName }
  let this := { this with methodCount := methodCount }
  this

/-- The four names an observer reports: the strings its pointers denote in `m`. -/
def Obs.names (m : Mem) (o : Obs) : List (Option (List Nat)) :=
  [cstr m o.dll_Name, cstr m o.name_space, cstr m o.className, cstr m o.methodName]

/-- Whether address `a` lies within one of the four strings the observer points to. -/
def Obs.pointsInto (m : Mem) (o : Obs) (a : Nat) : Prop :=
  inString m o.dll_Name a ∨ inString m o.name_space a ∨
    inString m o.className a ∨ inString m o.methodName a

instance (m : Mem) (o : Obs) (a : Nat) : Decidable (o.pointsInto m a) := by
  unfold Obs.pointsInto
  infer_instance

/-- Names of the data members. -/
inductive Field where
  | dll_Name
  | name_space
  | className
  | methodName
  | methodCount
  deriving DecidableEq, Repr

/-- Value of a data member (a pointer is read as its address). -/
def Obs.field (o : Obs) : Field → Int
  | .dll_Name => o.dll_Name
  | .name_space => o.name_space
  | .className => o.className
  | .methodName => o.methodName
  | .methodCount => o.methodCount

/-- What code with access to an observer can do to its data members: all five are
public and none is `const`, so each can be read and assigned. -/
inductive Access where
  | read (f : Field)
  | set_dll_Name (p : CharPtr)
  | set_name_space (p : CharPtr)
  | set_className (p : CharPtr)
  | set_methodName (p : CharPtr)
  | set_methodCount (n : Int)
  deriving DecidableEq, Repr

/-- The member an access assigns, if any. -/
def Access.target : Access → Option Field
  | .read _ => none
  | .set_dll_Name _ => some .dll_Name
  | .set_name_space _ => some .name_space
  | .set_className _ => some .className
  | .set_methodName _ => some .methodName
  | .set_methodCount _ => some .methodCount

/-- Effect of one access on the object. -/
def Obs.access (o : Obs) : Access → Obs
  | .read _ => o
  | .set_dll_Name p => { o with dll_Name := p }
  | .set_name_space p => { o with name_space := p }
  | .set_className p => { o with className := p }
  | .set_methodName p => { o with methodName := p }
  | .set_methodCount n => { o with methodCount := n }

/-- An override of the two pure-virtual hooks, by the accesses its body makes to the
data members of `this`. Both hooks are non-`const` member functions. -/
structure Hooks where
  OnMethodEnter : List Arg → Nat → List Access
  OnMethodExit : Arg → List Access

/-- An operation on an observer after its construction. -/
inductive Op where
  | direct (a : Access)
  | OnMethodEnter (args : List Arg) (argCount : Nat)
  | OnMethodExit (ret : Arg)

/-- The accesses an operation performs. -/
def Op.accesses (h : Hooks) : Op → List Access
  | .direct a => [a]
  | .OnMethodEnter args argCount => h.OnMethodEnter args argCount
  | .OnMethodExit ret => h.OnMethodExit ret

/-- One operation applied to the object. -/
def Obs.step (h : Hooks) (o : Obs) (op : Op) : Obs :=
  (op.accesses h).foldl Obs.access o

/-- A sequence of operations applied to the object. -/
def Obs.run (h : Hooks) (o : Obs) (ops : List Op) : Obs :=
  ops.foldl (Obs.step h) o

/-- A hook override whose entry hook records the received argument count in
`methodCount`. -/
def recordingHooks : Hooks where
  OnMethodEnter := fun _ argCount => [.set_methodCount argCount]
  OnMethodExit := fun _ => []

/-- Sample memory: the strings "G", "C", "P", "T" at addresses 1, 3, 5, 7. -/
def sampleMem : Mem := [0, 71, 0, 67, 0, 80, 0, 84, 0]

/-- What happens after construction, seen from the observer: a store of one byte into
the caller's string storage, or an access to the observer's own data members (the
observer object is a distinct object, not part of the string storage). -/
inductive Step where
  | write (addr byte : Nat)
  | access (a : Access)
  deriving DecidableEq, Repr

/-- One step applied to the string storage and the observer object. -/
def Step.apply (s : Mem × Obs) : Step → Mem × Obs
  | .write addr byte => (s.1.write addr byte, s.2)
  | .access a => (s.1, s.2.access a)

/-- A sequence of steps applied to the string storage and the observer object. -/
def runSteps (m : Mem) (o : Obs) (steps : List Step) : Mem × Obs :=
  steps.foldl Step.apply (m, o)

/-- Whether a step leaves alone what the observer `o` reports in storage `m`: a store
that hits no byte of the four strings `o` points to (terminators included), or an
access that assigns none of the four name members. -/
def Step.keepsNames (m : Mem) (o : Obs) : Step → Prop
  | .write addr _ => ¬ o.pointsInto m addr
  | .access a => a.target = none ∨ a.target = some Field.methodCount

instance (m : Mem) (o : Obs) (s : Step) : Decidable (s.keepsNames m o) := by
  unfold Step.keepsNames
  split <;> infer_instance

/-- The string at `p` reads the same, over the same extent, in `m2` as in `m`. -/
def sameString (m m2 : Mem) (p : Nat) : Prop :=
  cstr m2 p = cstr m p ∧ scanLen (m2.drop p) = scanLen (m.drop p)

/-- The four strings of `o` read the same in `m2` as in `m`. -/
def sameStrings (m m2 : Mem) (o : Obs) : Prop :=
  sameString m m2 o.dll_Name ∧ sameString m m2 o.name_space ∧
    sameString m m2 o.className ∧ sameString m m2 o.methodName

/-- The four name members of `o2` are those of `o`. -/
def samePointers (o o2 : Obs) : Prop :=
  o2.dll_Name = o.dll_Name ∧ o2.name_space = o.name_space ∧
    o2.className = o.className ∧ o2.methodName = o.methodName

/-- The bytes of an ASCII string literal. -/
def ascii (s : String) : List Nat := s.toList.map Char.toNat

/-- Caller storage holding "Game.dll" at 1, "Core" at 10, "Player" at 15, "TakeDamage"
at 22, "Enemy" at 33 and a second "Game.dll" at 39. -/
def gameMem : Mem :=
  0 :: (ascii "Game.dll" ++ 0 :: (ascii "Core" ++ 0 :: (ascii "Player" ++ 0 ::
    (ascii "TakeDamage" ++ 0 :: (ascii "Enemy" ++ 0 :: (ascii "Game.dll" ++ [0]))))))

/-! ## Registry and dispatch

`clr.h` only declares `HybridClrAddObs`; its body, the registry it fills and the
trampoline that reads the registry are not part of the source. They are modelled
here from the design document, over the `Obs` objects of the source: the registry
holds the `Obs *` it was given, under the key read from the object at the time of
the registration. -/

/-- Modelled from the spec: the matching key of the registry, which is also the
identity of an executing call: the 5-tuple (module, namespace, declaring type, method,
parameter count). The textual fields are string contents, compared by content; `none`
stands for a pointer that denotes no string. -/
structure MatchKey where
  moduleName : Option (List Nat)
  name_space : Option (List Nat)
  className : Option (List Nat)
  methodName : Option (List Nat)
  paramCount : Int
  deriving DecidableEq, Repr

/-- Modelled from the spec: the matching key of an `Obs` object, absent from the
source. The four strings its pointers denote in `m`, by content, and `methodCount`. -/
def Obs.key (m : Mem) (o : Obs) : MatchKey :=
  ⟨cstr m o.dll_Name, cstr m o.name_space, cstr m o.className, cstr m o.methodName,
    o.methodCount⟩

/-- An `Obs *`: the address of an observer object. -/
abbrev ObsPtr := Nat

/-- One call `HybridClrAddObs(obs)`: the pointer passed, the object it points to and the
string storage, as they are when the call is made. -/
structure Registration where
  mem : Mem
  obs : ObsPtr
  object : Obs
  deriving DecidableEq, Repr

/-- Modelled from the spec: the Interception Registry, keyed by the matching tuple,
with an ordered list of Observers (the registered `Obs *`) per key. -/
abbrev Registry := List (MatchKey × List ObsPtr)

/-- Modelled from the spec: the registry before the first registration. -/
def Registry.empty : Registry := []

/-- Modelled from the spec: Lookup, absent from the source. Returns the ordered list
of Observers registered for exactly the key `call`, or the empty list. -/
def Lookup : Registry → MatchKey → List ObsPtr
  | [], _ => []
  | (key, observers) :: rest, call => if key = call then observers else Lookup rest call

/-- Modelled from the spec: appends an Observer to the list for `key`, creating the
entry of the key if absent. -/
def Registry.append : Registry → MatchKey → ObsPtr → Registry
  | [], key, obs => [(key, [obs])]
  | (k, observers) :: rest, key, obs =>
    if k = key then (k, observers ++ [obs]) :: rest
    else (k, observers) :: Registry.append rest key obs

/-- Modelled from the spec: the body of `HybridClrAddObs` (Register), absent from the
source. Appends the Observer to the list for its matching key; no result is reported
(`void`). -/
def HybridClrAddObs (r : Registry) (reg : Registration) : Registry :=
  r.append (reg.object.key reg.mem) reg.obs

/-- Modelled from the spec: a sequence of registrations, in order. -/
def registerAll (r : Registry) (regs : List Registration) : Registry :=
  regs.foldl HybridClrAddObs r

/-- Modelled from the spec: what the trampoline does during one intercepted call,
namely the hook invocations it makes and the execution of the real method body. -/
inductive Event where
  | OnMethodEnter (obs : ObsPtr) (args : List Arg) (argCount : Nat)
  | body
  | OnMethodExit (obs : ObsPtr) (ret : Arg)
  deriving DecidableEq, Repr

/-- Modelled from the spec: the Dispatch Trampoline, absent from the source. For the
Observers found by Lookup, in registration order: the entry hooks with the argument
carriers and their count, then the real method body, then the exit hooks with the
carrier of the return value. -/
def Dispatch (r : Registry) (call : MatchKey) (args : List Arg) (ret : Arg) :
    List Event :=
  (Lookup r call).map (fun obs => Event.OnMethodEnter obs args args.length)
    ++ [Event.body]
    ++ (Lookup r call).map (fun obs => Event.OnMethodExit obs ret)

/-- The observers whose entry hook ran, in order of invocation. -/
def entered : List Event → List ObsPtr
  | [] => []
  | .OnMethodEnter obs _ _ :: rest => obs :: entered rest
  | _ :: rest => entered rest

/-- The observers whose exit hook ran, in order of invocation. -/
def exited : List Event → List ObsPtr
  | [] => []
  | .OnMethodExit obs _ :: rest => obs :: exited rest
  | _ :: rest => exited rest

/-- Number of hook invocations (entry and exit) made on the observer at `obs`. -/
def invocations (obs : ObsPtr) (trace : List Event) : Nat :=
  (entered trace).count obs + (exited trace).count obs

/-- The identity of a call of `Game.dll`, `Core.Player.TakeDamage` with one parameter. -/
def takeDamage : MatchKey :=
  ⟨some (ascii "Game.dll"), some (ascii "Core"), some (ascii "Player"),
    some (ascii "TakeDamage"), 1⟩

/-- An observer of `TakeDamage` with `n` parameters, built over `gameMem`, with its
module name read at address `dll`. -/
def takeDamageObs (dll : CharPtr) (n : Int) : Obs := Obs.ctor ⟨0, 0, 0, 0, 0⟩ dll 10 15 22 n

/-! ## Byte-level lemmas -/

theorem length_toLE (k v : Nat) : (toLE k v).length = k := by
  induction k generalizing v with
  | zero => rfl
  | succ k ih => simp [toLE, ih]

theorem fromLE_toLE (k v : Nat) : fromLE (toLE k v) = v % 256 ^ k := by
  induction k generalizing v with
  | zero => simp [toLE, fromLE, Nat.mod_one]
  | succ k ih =>
    simp only [toLE, fromLE, ih]
    rw [pow_succ, Nat.mul_comm (256 ^ k) 256, Nat.mod_mul]

theorem fromLE_append (xs ys : List Nat) :
    fromLE (xs ++ ys) = fromLE xs + 256 ^ xs.length * fromLE ys := by
  induction xs with
  | nil => simp [fromLE]
  | cons x xs ih =>
    have e : fromLE (x :: xs ++ ys) = x + 256 * fromLE (xs ++ ys) := rfl
    rw [e, ih]
    simp only [fromLE, List.length_cons, pow_succ]
    ring

theorem drop_toLE (n k v : Nat) : (toLE n v).drop k = toLE (n - k) (v / 256 ^ k) := by
  induction k generalizing n v with
  | zero => simp
  | succ k ih =>
    cases n with
    | zero => simp [toLE]
    | succ n =>
      simp only [toLE, List.drop_succ_cons, ih, Nat.add_sub_add_right]
      rw [pow_succ, Nat.mul_comm (256 ^ k) 256, Nat.div_div_eq_div_mul]

theorem take_toLE_append (k e : Nat) (rest : List Nat) :
    (toLE k e ++ rest).take k = toLE k e := by
  rw [List.take_append_of_le_length (by rw [length_toLE])]
  exact List.take_of_length_le (by rw [length_toLE])

theorem pow256 (k : Nat) : 256 ^ k = 2 ^ (8 * k) := by
  rw [pow_mul]; norm_num

/-- What a read of member `m2` sees after a store through member `m1` of the same size. -/
theorem load_store_same_size (abi : ABI) (m1 m2 : Member) (v : Int) (a : Arg)
    (h : m2.bytes abi = m1.bytes abi) :
    Arg.load abi m2 (Arg.store abi m1 v a) = m2.decode abi (m1.encode abi v % 2 ^ m1.bits abi) := by
  simp only [Arg.load, Arg.store, h, take_toLE_append, fromLE_toLE, Member.bits, pow256]

theorem member_bytes_le (abi : ABI) (m : Member) : m.bytes abi ≤ 8 := by
  cases m <;> cases abi <;> decide

theorem length_store (abi : ABI) (m : Member) (v : Int) (a : Arg) (h : a.wf) :
    (Arg.store abi m v a).wf := by
  have hk := member_bytes_le abi m
  simp only [Arg.wf] at h
  simp only [Arg.wf, Arg.store, List.length_append, length_toLE, List.length_drop, h]
  omega

/-- The word read through `__u64` once `k` bytes were stored over a stored 64-bit word. -/
theorem fromLE_narrow_over_wide (k e x : Nat) (rest : List Nat) (hk : k ≤ 8) :
    fromLE ((toLE k e ++ (toLE 8 x ++ rest).drop k).take 8)
      = e % 256 ^ k + 256 ^ k * (x / 256 ^ k % 256 ^ (8 - k)) := by
  have h1 : (toLE 8 x ++ rest).drop k = toLE (8 - k) (x / 256 ^ k) ++ rest := by
    rw [List.drop_append_of_le_length (by rw [length_toLE]; exact hk), drop_toLE]
  have h2 : (toLE k e ++ (toLE (8 - k) (x / 256 ^ k) ++ rest)).take 8
      = toLE k e ++ toLE (8 - k) (x / 256 ^ k) := by
    rw [← List.append_assoc]
    have hl : (toLE k e ++ toLE (8 - k) (x / 256 ^ k)).length = 8 := by
      simp only [List.length_append, length_toLE]; omega
    rw [List.take_append_of_le_length (by rw [hl])]
    exact List.take_of_length_le (by rw [hl])
  rw [h1, h2, fromLE_append, fromLE_toLE, fromLE_toLE, length_toLE]

theorem getElem?_storeAt_ne (abi : ABI) (args : ArgArray) (i j : Nat) (m : Member) (v : Int)
    (h : i ≠ j) : (args.storeAt abi i m v)[j]? = args[j]? := by
  unfold ArgArray.storeAt
  split
  · exact List.getElem?_set_ne h
  · rfl

theorem getElem?_storeAt_self (abi : ABI) (args : ArgArray) (i : Nat) (m : Member) (v : Int)
    (h : i < args.length) :
    (args.storeAt abi i m v)[i]? = some ((args.get ⟨i, h⟩).store abi m v) := by
  have e : args[i]? = some (args.get ⟨i, h⟩) := by
    simp [List.getElem?_eq_getElem h]
  unfold ArgArray.storeAt
  rw [e]
  simp [List.getElem?_set_self h]

theorem decode_encode (abi : ABI) (m : Member) (v : Int) (h : m.valid abi v) :
    m.decode abi (m.encode abi v % 2 ^ m.bits abi) = v := by
  cases m <;> cases abi <;>
    simp [Member.valid, Member.ctype, Member.bits, Member.bytes, CType.sizeof, ABI.ptrBytes,
      Member.encode, Member.decode, Member.signed] at h ⊢ <;> omega

/-! ## The value carrier -/

/-- C2: for every member of `union Arg` and every value of the member's type, a store
through the member followed by a read of the same member returns the value; in an
array of carriers the store into slot `i` is read back from slot `i` and leaves what
is read from every other slot `j`, through any member, unchanged. -/
theorem Arg.load_store_fidelity (abi : ABI) (m : Member) (v : Int) (hv : m.valid abi v) :
    (∀ a : Arg, Arg.load abi m (Arg.store abi m v a) = v) ∧
    (∀ (args : ArgArray) (i : Nat), i < args.length →
      (args.storeAt abi i m v).loadAt abi i m = some v) ∧
    (∀ (args : ArgArray) (i j : Nat) (m2 : Member), i ≠ j →
      (args.storeAt abi i m v).loadAt abi j m2 = args.loadAt abi j m2) := by
  refine ⟨fun a => ?_, fun args i hi => ?_, fun args i j m2 hij => ?_⟩
  · rw [load_store_same_size abi m m v a rfl, decode_encode abi m v hv]
  · unfold ArgArray.loadAt
    rw [getElem?_storeAt_self abi args i m v hi, Option.map_some',
      load_store_same_size abi m m v _ rfl, decode_encode abi m v hv]
  · unfold ArgArray.loadAt
    rw [getElem?_storeAt_ne abi args i j m v hij]

/-- Witness for C2 at the literals of the specification: `i32 = 42`, `b = true` in a
slot of an array, and `f8 = 3.5` (pattern `0x400C000000000000`), whose store into slot 1
leaves the 42 read from slot 0. -/
theorem Arg.load_store_fidelity_witness :
    Member.valid .lp64 .i32 42 ∧ Member.valid .lp64 .b (boolVal true) ∧
    Member.valid .ilp32_a8 .f8 (ieee64 false 1024 0xC000000000000) ∧
    ieee64 false 1024 0xC000000000000 = 0x400C000000000000 ∧
    Arg.load .lp64 .i32 (Arg.store .lp64 .i32 42 ⟨[0, 0, 0, 0, 255, 255, 255, 255]⟩) = 42 ∧
    ArgArray.loadAt .lp64 (ArgArray.storeAt .lp64 [⟨[0, 0, 0, 0, 0, 0, 0, 0]⟩, ⟨[7, 7, 7, 7, 7, 7, 7, 7]⟩]
      1 .b (boolVal true)) 1 .b = some (boolVal true) ∧
    Arg.load .ilp32_a8 .f8 (Arg.store .ilp32_a8 .f8 (ieee64 false 1024 0xC000000000000)
      ⟨[1, 7, 7, 7, 7, 7, 7, 7]⟩) = ieee64 false 1024 0xC000000000000 ∧
    ArgArray.loadAt .ilp32_a8 (ArgArray.storeAt .ilp32_a8 [⟨[42, 0, 0, 0, 0, 0, 0, 0]⟩, ⟨[1, 7, 7, 7, 7, 7, 7, 7]⟩]
      1 .f8 (ieee64 false 1024 0xC000000000000)) 0 .i32
      = ArgArray.loadAt .ilp32_a8 [⟨[42, 0, 0, 0, 0, 0, 0, 0]⟩, ⟨[1, 7, 7, 7, 7, 7, 7, 7]⟩] 0 .i32 :=
  ⟨by decide, by decide, by decide, by decide,
    (Arg.load_store_fidelity .lp64 .i32 42 (by decide)).1 _,
    (Arg.load_store_fidelity .lp64 .b (boolVal true) (by decide)).2.1 _ 1 (by decide),
    (Arg.load_store_fidelity .ilp32_a8 .f8 (ieee64 false 1024 0xC000000000000) (by decide)).1 _,
    (Arg.load_store_fidelity .ilp32_a8 .f8 (ieee64 false 1024 0xC000000000000) (by decide)).2.2
      _ 1 0 .i32 (by decide)⟩

/-- C5: the members of `union Arg` are, type for type, the documented kinds (one member
each, none missing, none extra); every member is at most 64 bits wide and starts at
offset 0; `sizeof(Arg)` is 8 on every data model, a store keeps a carrier at 8 bytes,
and no discriminant is stored: the carrier left by a store depends only on the bytes
written, not on the member written through. -/
theorem Arg.fixed_size_untagged_union :
    (Arg.members.map Member.ctype).Perm (CarrierKind.documented.map CarrierKind.ctype) ∧
    Arg.members.Nodup ∧ (∀ m : Member, m ∈ Arg.members) ∧
    (∀ (abi : ABI) (m : Member), m.bits abi ≤ 64 ∧ m.offset = 0) ∧
    (∀ abi : ABI, Arg.sizeof abi = 8) ∧
    (∀ (abi : ABI) (m : Member) (v : Int) (a : Arg), a.wf → (Arg.store abi m v a).wf) ∧
    (∀ (abi : ABI) (m1 m2 : Member) (v1 v2 : Int) (a : Arg),
      m1.bytes abi = m2.bytes abi → m1.encode abi v1 = m2.encode abi v2 →
      Arg.store abi m1 v1 a = Arg.store abi m2 v2 a) := by
  refine ⟨by decide, by decide, fun m => by cases m <;> decide, fun abi m => ?_,
    fun abi => by cases abi <;> decide, length_store, fun abi m1 m2 v1 v2 a hb he => ?_⟩
  · have := member_bytes_le abi m
    exact ⟨by unfold Member.bits; omega, rfl⟩
  · simp only [Arg.store, hb, he]

/-- Witness for C5: an 8-byte carrier stays 8 bytes under a store through `b`, and
storing -1 through `i32` leaves the same carrier as storing `0xFFFFFFFF` through
`u32` or the pattern `0xFFFFFFFF` through `f4`. -/
theorem Arg.fixed_size_untagged_union_witness :
    Arg.wf ⟨[1, 2, 3, 4, 5, 6, 7, 8]⟩ ∧
    (Arg.store .lp64 .b 1 ⟨[1, 2, 3, 4, 5, 6, 7, 8]⟩).wf ∧
    Arg.store .lp64 .i32 (-1) ⟨[1, 2, 3, 4, 5, 6, 7, 8]⟩
      = Arg.store .lp64 .u32 0xFFFFFFFF ⟨[1, 2, 3, 4, 5, 6, 7, 8]⟩ ∧
    Arg.store .lp64 .i32 (-1) ⟨[1, 2, 3, 4, 5, 6, 7, 8]⟩
      = Arg.store .lp64 .f4 0xFFFFFFFF ⟨[1, 2, 3, 4, 5, 6, 7, 8]⟩ :=
  ⟨by decide,
    Arg.fixed_size_untagged_union.2.2.2.2.2.1 .lp64 .b 1 _ (by decide),
    Arg.fixed_size_untagged_union.2.2.2.2.2.2 .lp64 .i32 .u32 (-1) 0xFFFFFFFF _ (by decide) (by decide),
    Arg.fixed_size_untagged_union.2.2.2.2.2.2 .lp64 .i32 .f4 (-1) 0xFFFFFFFF _ (by decide) (by decide)⟩

/-- C9: for each width 8, 16, 32, 64 the signed member and the unsigned member of that
width share their bits: a value `v` stored through the signed member is read through
the unsigned member as `v mod 2^N`, and a value `u` stored through the unsigned member
is read through the signed member as the value of the signed type congruent to `u`
modulo `2^N` (`u` itself below `2^(N-1)`, `u - 2^N` from there on). -/
theorem Arg.signedness_shares_bits (abi : ABI) (p : Member × Member)
    (hp : p ∈ Arg.signednessPairs) (a : Arg) :
    p.1.bits abi = p.2.bits abi ∧ p.1.bits abi ∈ [8, 16, 32, 64] ∧
    (∀ v : Int, p.1.valid abi v →
      Arg.load abi p.2 (Arg.store abi p.1 v a) = v % 2 ^ p.1.bits abi) ∧
    (∀ u : Int, p.2.valid abi u →
      p.1.valid abi (Arg.load abi p.1 (Arg.store abi p.2 u a)) ∧
      Arg.load abi p.1 (Arg.store abi p.2 u a) % 2 ^ p.1.bits abi = u ∧
      Arg.load abi p.1 (Arg.store abi p.2 u a)
        = if u < 2 ^ (p.1.bits abi - 1) then u else u - 2 ^ p.1.bits abi) := by
  have hb : p.2.bytes abi = p.1.bytes abi := by
    simp only [Arg.signednessPairs, List.mem_cons, List.mem_singleton, List.not_mem_nil,
      or_false] at hp
    rcases hp with rfl | rfl | rfl | rfl <;> rfl
  refine ⟨by simp only [Member.bits, hb], ?_, fun v hv => ?_, fun u hu => ?_⟩
  · simp only [Arg.signednessPairs, List.mem_cons, List.mem_singleton, List.not_mem_nil,
      or_false] at hp
    rcases hp with rfl | rfl | rfl | rfl <;> cases abi <;> decide
  · rw [load_store_same_size abi p.1 p.2 v a hb]
    simp only [Arg.signednessPairs, List.mem_cons, List.mem_singleton, List.not_mem_nil,
      or_false] at hp
    rcases hp with rfl | rfl | rfl | rfl <;>
      simp [Member.valid, Member.ctype, Member.bits, Member.bytes, CType.sizeof,
        Member.encode, Member.decode, Member.signed] at hv ⊢ <;> omega
  · rw [load_store_same_size abi p.2 p.1 u a hb.symm]
    simp only [Arg.signednessPairs, List.mem_cons, List.mem_singleton, List.not_mem_nil,
      or_false] at hp
    rcases hp with rfl | rfl | rfl | rfl <;>
      simp [Member.valid, Member.ctype, Member.bits, Member.bytes, CType.sizeof,
        Member.encode, Member.decode, Member.signed] at hu ⊢ <;>
      (refine ⟨?_, ?_, ?_⟩ <;> (try split) <;> omega)

/-- Witness for C9: -3 stored through `i8` reads 253 through `u8`, and 253 stored
through `u8` reads -3 through `i8`. -/
theorem Arg.signedness_shares_bits_witness :
    (Member.i8, Member.u8) ∈ Arg.signednessPairs ∧ Member.valid .lp64 .i8 (-3) ∧
    Member.valid .lp64 .u8 253 ∧
    Arg.load .lp64 .u8 (Arg.store .lp64 .i8 (-3) ⟨[0, 1, 2, 3, 4, 5, 6, 7]⟩) = (-3) % 2 ^ 8 ∧
    Arg.load .lp64 .i8 (Arg.store .lp64 .u8 253 ⟨[0, 1, 2, 3, 4, 5, 6, 7]⟩) % 2 ^ 8 = 253 :=
  ⟨by decide, by decide, by decide,
    (Arg.signedness_shares_bits .lp64 (.i8, .u8) (by decide) _).2.2.1 (-3) (by decide),
    ((Arg.signedness_shares_bits .lp64 (.i8, .u8) (by decide) _).2.2.2 253 (by decide)).2.1⟩

/-- C10: for a carrier holding `__u64 = X` and every member narrower than 64 bits
(`b`, `i8`, `u8`, `i16`, `u16`, `i32`, `u32`, `f4`), of width `N`: after a store of `v`
through the narrow member, the word read through `__u64` has the bits of `v` as its low
`N` bits and the upper `64 - N` bits of `X` above them. -/
theorem Arg.narrow_store_keeps_upper_bits (abi : ABI) (m : Member)
    (hm : m ∈ Arg.narrowMembers) (X : Int) (hX : Member.valid abi .__u64 X)
    (v : Int) (hv : m.valid abi v) (a : Arg) :
    m.bits abi < 64 ∧
    Arg.load abi .__u64 (Arg.store abi m v (Arg.store abi .__u64 X a)) % 2 ^ m.bits abi
      = v % 2 ^ m.bits abi ∧
    Arg.load abi .__u64 (Arg.store abi m v (Arg.store abi .__u64 X a)) / 2 ^ m.bits abi
      = X / 2 ^ m.bits abi ∧
    Arg.load abi .__u64 (Arg.store abi m v (Arg.store abi .__u64 X a))
      = X / 2 ^ m.bits abi * 2 ^ m.bits abi + v % 2 ^ m.bits abi := by
  have key : Arg.load abi .__u64 (Arg.store abi m v (Arg.store abi .__u64 X a))
      = ((m.encode abi v % 256 ^ m.bytes abi + 256 ^ m.bytes abi *
          (Member.encode abi .__u64 X / 256 ^ m.bytes abi % 256 ^ (8 - m.bytes abi)) : Nat) : Int) := by
    have h8 : Member.bytes abi .__u64 = 8 := rfl
    simp only [Arg.load, Arg.store, h8]
    rw [fromLE_narrow_over_wide _ _ _ _ (member_bytes_le abi m)]
    simp [Member.decode, Member.signed, Member.ctype]
  rw [key]
  simp only [Arg.narrowMembers, List.mem_cons, List.mem_singleton, List.not_mem_nil,
    or_false] at hm
  rcases hm with rfl | rfl | rfl | rfl | rfl | rfl | rfl | rfl <;>
    simp [Member.valid, Member.ctype, Member.bits, Member.bytes, CType.sizeof,
      Member.encode] at hX hv ⊢ <;> omega

/-- Witness for C10: over `__u64 = 0xFFFFFFFFFFFFFFFF` a store of 42 through `i32`
leaves `0xFFFFFFFF0000002A`, which is neither the zero- nor the sign-extension of 42. -/
theorem Arg.narrow_store_keeps_upper_bits_witness :
    Member.i32 ∈ Arg.narrowMembers ∧ Member.valid .lp64 .__u64 0xFFFFFFFFFFFFFFFF ∧
    Member.valid .lp64 .i32 42 ∧
    Arg.load .lp64 .__u64 (Arg.store .lp64 .i32 42
      (Arg.store .lp64 .__u64 0xFFFFFFFFFFFFFFFF ⟨[0, 0, 0, 0, 0, 0, 0, 0]⟩))
      = 0xFFFFFFFFFFFFFFFF / 2 ^ Member.bits .lp64 .i32 * 2 ^ Member.bits .lp64 .i32
        + 42 % 2 ^ Member.bits .lp64 .i32 :=
  ⟨by decide, by decide, by decide,
    (Arg.narrow_store_keeps_upper_bits .lp64 .i32 (by decide) 0xFFFFFFFFFFFFFFFF (by decide)
      42 (by decide) _).2.2.2⟩

/-! ## The observer base class -/

theorem cstrOf_set_of_scanLen_lt (l : List Nat) (i v : Nat) (h : scanLen l < i) :
    cstrOf (l.set i v) = cstrOf l := by
  induction l generalizing i with
  | nil => rfl
  | cons c rest ih =>
    cases i with
    | zero => omega
    | succ i =>
      simp only [List.set_cons_succ, cstrOf]
      by_cases hc : c = 0
      · simp [hc]
      · simp only [scanLen, hc, if_false] at h
        simp only [hc, if_false]
        rw [ih i (by omega)]

theorem cstr_write_of_not_inString (m : Mem) (p a v : Nat)
    (h : ¬ inString m p a) : cstr (m.write a v) p = cstr m p := by
  unfold cstr
  by_cases hp : p = 0
  · simp [hp]
  · simp only [hp, if_false, Mem.write]
    rw [List.drop_set]
    by_cases hlt : a < p
    · simp [hlt]
    · simp only [hlt, if_false]
      apply cstrOf_set_of_scanLen_lt
      have h2 : p + scanLen (m.drop p) < a := by
        by_contra hc
        exact h ⟨by omega, by omega⟩
      omega

theorem field_access_of_target_ne (o : Obs) (a : Access) (f : Field)
    (h : a.target ≠ some f) : (o.access a).field f = o.field f := by
  cases a <;> cases f <;> simp_all [Access.target, Obs.access, Obs.field]

theorem field_foldl_access (as : List Access) (o : Obs) (f : Field)
    (h : ∀ a ∈ as, a.target ≠ some f) : (as.foldl Obs.access o).field f = o.field f := by
  induction as generalizing o with
  | nil => rfl
  | cons a rest ih =>
    simp only [List.foldl_cons]
    rw [ih _ (fun b hb => h b (List.mem_cons_of_mem _ hb)),
      field_access_of_target_ne o a f (h a (List.mem_cons_self _ _))]

theorem field_run (hooks : Hooks) (ops : List Op) (o : Obs) (f : Field)
    (h : ∀ op ∈ ops, ∀ a ∈ op.accesses hooks, a.target ≠ some f) :
    (o.run hooks ops).field f = o.field f := by
  induction ops generalizing o with
  | nil => rfl
  | cons op rest ih =>
    simp only [Obs.run, List.foldl_cons]
    have := ih (o.step hooks op) (fun op2 h2 => h op2 (List.mem_cons_of_mem _ h2))
    simp only [Obs.run] at this
    rw [this, Obs.step, field_foldl_access _ o f (h op (List.mem_cons_self _ _))]

theorem scanLen_set_of_scanLen_lt (l : List Nat) (i v : Nat) (h : scanLen l < i) :
    scanLen (l.set i v) = scanLen l := by
  induction l generalizing i with
  | nil => rfl
  | cons c rest ih =>
    cases i with
    | zero => omega
    | succ i =>
      simp only [List.set_cons_succ, scanLen]
      by_cases hc : c = 0
      · simp [hc]
      · simp only [scanLen, hc, if_false] at h
        simp only [hc, if_false]
        rw [ih i (by omega)]

theorem scanLen_write_of_not_inString (m : Mem) (p a v : Nat) (h : ¬ inString m p a) :
    scanLen ((m.write a v).drop p) = scanLen (m.drop p) := by
  simp only [Mem.write]
  rw [List.drop_set]
  by_cases hlt : a < p
  · simp [hlt]
  · simp only [hlt, if_false]
    apply scanLen_set_of_scanLen_lt
    have h2 : p + scanLen (m.drop p) < a := by
      by_contra hc
      exact h ⟨by omega, by omega⟩
    omega

theorem samePointers_refl (o : Obs) : samePointers o o := ⟨rfl, rfl, rfl, rfl⟩

theorem sameStrings_refl (m : Mem) (o : Obs) : sameStrings m m o :=
  ⟨⟨rfl, rfl⟩, ⟨rfl, rfl⟩, ⟨rfl, rfl⟩, ⟨rfl, rfl⟩⟩

theorem sameString_write (m m2 : Mem) (p a v : Nat) (hs : sameString m m2 p)
    (h : ¬ inString m p a) : sameString m (m2.write a v) p := by
  have h2 : ¬ inString m2 p a := by
    simpa only [inString, hs.2] using h
  exact ⟨(cstr_write_of_not_inString m2 p a v h2).trans hs.1,
    (scanLen_write_of_not_inString m2 p a v h2).trans hs.2⟩

theorem samePointers_access (o o2 : Obs) (a : Access) (hp : samePointers o o2)
    (h : a.target = none ∨ a.target = some Field.methodCount) :
    samePointers o (o2.access a) := by
  cases a <;> first
    | exact hp
    | (rcases h with h | h <;> simp [Access.target] at h)

theorem runSteps_keeps (m : Mem) (o : Obs) (steps : List Step) (m2 : Mem) (o2 : Obs)
    (hp : samePointers o o2) (hs : sameStrings m m2 o)
    (h : ∀ s ∈ steps, s.keepsNames m o) :
    samePointers o (steps.foldl Step.apply (m2, o2)).2 ∧
      sameStrings m (steps.foldl Step.apply (m2, o2)).1 o := by
  induction steps generalizing m2 o2 with
  | nil => exact ⟨hp, hs⟩
  | cons s rest ih =>
    have hrest : ∀ t ∈ rest, t.keepsNames m o := fun t ht => h t (List.mem_cons_of_mem _ ht)
    have hhead := h s (List.mem_cons_self _ _)
    simp only [List.foldl_cons]
    cases s with
    | write addr byte =>
      simp only [Step.keepsNames, Obs.pointsInto, not_or] at hhead
      obtain ⟨h1, h2, h3, h4⟩ := hhead
      exact ih _ _ hp ⟨sameString_write m m2 _ addr byte hs.1 h1,
        sameString_write m m2 _ addr byte hs.2.1 h2,
        sameString_write m m2 _ addr byte hs.2.2.1 h3,
        sameString_write m m2 _ addr byte hs.2.2.2 h4⟩ hrest
    | access a =>
      exact ih _ _ (samePointers_access o o2 a hp hhead) hs hrest

/-- C1: the constructor accepts every input and stores the descriptor as given: whatever
the storage held before, afterwards `dll_Name`, `name_space`, `className`, `methodName`
and `methodCount` are the module, namespace, class and method strings and the parameter
count passed in, each in its own field, and in every memory the observer reports the
strings the caller's pointers denote there. -/
theorem Obs.ctor_stores_descriptor (this : Obs)
    (dllName name_space className methodName : CharPtr) (methodCount : Int) :
    (Obs.ctor this dllName name_space className methodName methodCount).dll_Name = dllName ∧
    (Obs.ctor this dllName name_space className methodName methodCount).name_space = name_space ∧
    (Obs.ctor this dllName name_space className methodName methodCount).className = className ∧
    (Obs.ctor this dllName name_space className methodName methodCount).methodName = methodName ∧
    (Obs.ctor this dllName name_space className methodName methodCount).methodCount = methodCount ∧
    (∀ m : Mem, (Obs.ctor this dllName name_space className methodName methodCount).names m
      = [cstr m dllName, cstr m name_space, cstr m className, cstr m methodName]) :=
  ⟨rfl, rfl, rfl, rfl, rfl, fun _ => rfl⟩

/-- C3, as stated, fails: the observer built over the strings "G", "C", "P", "T" of the
sample memory reports the module "H" once the caller overwrites the byte at address 1. -/
theorem Obs.names_follow_caller_storage :
    (Obs.ctor ⟨0, 0, 0, 0, 0⟩ 1 3 5 7 1).names sampleMem
      = [some [71], some [67], some [80], some [84]] ∧
    (Obs.ctor ⟨0, 0, 0, 0, 0⟩ 1 3 5 7 1).names (sampleMem.write 1 72)
      = [some [72], some [67], some [80], some [84]] ∧
    (Obs.ctor ⟨0, 0, 0, 0, 0⟩ 1 3 5 7 1).names (sampleMem.write 1 72)
      ≠ (Obs.ctor ⟨0, 0, 0, 0, 0⟩ 1 3 5 7 1).names sampleMem := by
  decide

/-- C3, amended: an observer holds the four pointers it was constructed from, shared
with the caller, not copies of the strings. As long as none of its four name members
is reassigned they stay the caller's pointers, and a later modification of the caller's
string storage that writes no byte of those four strings (terminators included) does
not change the module, namespace, class or method name the observer reports. -/
theorem Obs.names_kept_outside_strings (m : Mem) (this : Obs)
    (dllName name_space className methodName : CharPtr) (methodCount : Int)
    (steps : List Step)
    (h : ∀ s ∈ steps,
      s.keepsNames m (Obs.ctor this dllName name_space className methodName methodCount)) :
    (runSteps m (Obs.ctor this dllName name_space className methodName methodCount) steps).2.dll_Name
      = dllName ∧
    (runSteps m (Obs.ctor this dllName name_space className methodName methodCount) steps).2.name_space
      = name_space ∧
    (runSteps m (Obs.ctor this dllName name_space className methodName methodCount) steps).2.className
      = className ∧
    (runSteps m (Obs.ctor this dllName name_space className methodName methodCount) steps).2.methodName
      = methodName ∧
    (runSteps m (Obs.ctor this dllName name_space className methodName methodCount) steps).2.names
        (runSteps m (Obs.ctor this dllName name_space className methodName methodCount) steps).1
      = (Obs.ctor this dllName name_space className methodName methodCount).names m := by
  have hs := runSteps_keeps m (Obs.ctor this dllName name_space className methodName methodCount)
    steps m _ (samePointers_refl _) (sameStrings_refl m _) h
  obtain ⟨⟨p1, p2, p3, p4⟩, q1, q2, q3, q4⟩ := hs
  refine ⟨p1, p2, p3, p4, ?_⟩
  simp only [Obs.names, runSteps, p1, p2, p3, p4, q1.1, q2.1, q3.1, q4.1]

/-- Witness for the amended C3: over `gameMem` the caller rewrites its string "Enemy"
(first letter, then the terminator) and the observer's `methodCount` is reassigned;
the observer of `TakeDamage` reports the same four names. -/
theorem Obs.names_kept_outside_strings_witness :
    (∀ s ∈ [Step.write 33 70, Step.access (.set_methodCount 2), Step.write 38 33,
        Step.access (.read .dll_Name)],
      s.keepsNames gameMem (Obs.ctor ⟨0, 0, 0, 0, 0⟩ 1 10 15 22 1)) ∧
    cstr gameMem 33 ≠ cstr (runSteps gameMem (Obs.ctor ⟨0, 0, 0, 0, 0⟩ 1 10 15 22 1)
      [Step.write 33 70, Step.access (.set_methodCount 2), Step.write 38 33,
        Step.access (.read .dll_Name)]).1 33 ∧
    (runSteps gameMem (Obs.ctor ⟨0, 0, 0, 0, 0⟩ 1 10 15 22 1)
      [Step.write 33 70, Step.access (.set_methodCount 2), Step.write 38 33,
        Step.access (.read .dll_Name)]).2.names
      (runSteps gameMem (Obs.ctor ⟨0, 0, 0, 0, 0⟩ 1 10 15 22 1)
        [Step.write 33 70, Step.access (.set_methodCount 2), Step.write 38 33,
          Step.access (.read .dll_Name)]).1
      = (Obs.ctor ⟨0, 0, 0, 0, 0⟩ 1 10 15 22 1).names gameMem :=
  ⟨by decide, by decide,
    (Obs.names_kept_outside_strings gameMem ⟨0, 0, 0, 0, 0⟩ 1 10 15 22 1 _ (by decide)).2.2.2.2⟩

/-- C4, as stated, fails: the five members are public and not `const`, so an entry hook
that assigns `methodCount`, or a direct assignment by a holder, changes the constructed
value. -/
theorem Obs.fields_are_assignable :
    ((Obs.ctor ⟨0, 0, 0, 0, 0⟩ 1 3 5 7 1).run recordingHooks [.OnMethodEnter [] 0]).methodCount
      ≠ (Obs.ctor ⟨0, 0, 0, 0, 0⟩ 1 3 5 7 1).methodCount ∧
    ((Obs.ctor ⟨0, 0, 0, 0, 0⟩ 1 3 5 7 1).run recordingHooks [.direct (.set_dll_Name 3)]).dll_Name
      ≠ (Obs.ctor ⟨0, 0, 0, 0, 0⟩ 1 3 5 7 1).dll_Name := by
  decide

/-- C4, amended: after the constructor has returned, each of the five fields keeps its
constructed value across every sequence of later operations (hook invocations and
accesses by holders) in which no access assigns that field. -/
theorem Obs.field_kept_unless_assigned (hooks : Hooks) (this : Obs)
    (dllName name_space className methodName : CharPtr) (methodCount : Int)
    (ops : List Op) (f : Field)
    (h : ∀ op ∈ ops, ∀ a ∈ op.accesses hooks, a.target ≠ some f) :
    ((Obs.ctor this dllName name_space className methodName methodCount).run hooks ops).field f
      = (Obs.ctor this dllName name_space className methodName methodCount).field f :=
  field_run hooks ops _ f h

/-- Witness for the amended C4: under the recording hooks an entry, an exit and a read
leave `methodName` at its constructed value. -/
theorem Obs.field_kept_unless_assigned_witness :
    (∀ op ∈ [Op.OnMethodEnter [] 0, Op.OnMethodExit ⟨[]⟩, Op.direct (.read .methodCount)],
      ∀ a ∈ op.accesses recordingHooks, a.target ≠ some Field.methodName) ∧
    ((Obs.ctor ⟨0, 0, 0, 0, 0⟩ 1 3 5 7 1).run recordingHooks
      [Op.OnMethodEnter [] 0, Op.OnMethodExit ⟨[]⟩, Op.direct (.read .methodCount)]).field .methodName
      = (Obs.ctor ⟨0, 0, 0, 0, 0⟩ 1 3 5 7 1).field .methodName :=
  ⟨by decide, Obs.field_kept_unless_assigned recordingHooks ⟨0, 0, 0, 0, 0⟩ 1 3 5 7 1 _ _ (by decide)⟩

/-! ## Registry and dispatch -/

theorem lookup_append_same (r : Registry) (key : MatchKey) (obs : ObsPtr) :
    Lookup (r.append key obs) key = Lookup r key ++ [obs] := by
  induction r with
  | nil => simp [Registry.append, Lookup]
  | cons e rest ih =>
    obtain ⟨k, observers⟩ := e
    by_cases hk : k = key
    · simp [Registry.append, Lookup, hk]
    · simp [Registry.append, Lookup, hk, ih]

theorem lookup_append_other (r : Registry) (key : MatchKey) (obs : ObsPtr)
    (call : MatchKey) (h : call ≠ key) :
    Lookup (r.append key obs) call = Lookup r call := by
  induction r with
  | nil => simp [Registry.append, Lookup, Ne.symm h]
  | cons e rest ih =>
    obtain ⟨k, observers⟩ := e
    by_cases hk : k = key
    · simp only [Registry.append, Lookup, hk, if_true]
      rw [if_neg (Ne.symm h), if_neg (Ne.symm h)]
    · by_cases hc : k = call
      · subst hc
        simp only [Registry.append, hk, if_false, Lookup, if_true]
      · simp only [Registry.append, hk, if_false, Lookup, hc, ih]

theorem lookup_registerAll (regs : List Registration) (r : Registry) (call : MatchKey) :
    Lookup (registerAll r regs) call
      = Lookup r call
        ++ (regs.filter (fun reg => reg.object.key reg.mem = call)).map Registration.obs := by
  induction regs generalizing r with
  | nil => simp [registerAll]
  | cons reg rest ih =>
    have e : registerAll r (reg :: rest) = registerAll (HybridClrAddObs r reg) rest := rfl
    rw [e, ih]
    by_cases hd : reg.object.key reg.mem = call
    · subst hd
      simp [HybridClrAddObs, lookup_append_same, List.filter_cons]
    · rw [HybridClrAddObs, lookup_append_other r _ reg.obs call (Ne.symm hd)]
      simp [List.filter_cons, hd]

theorem entered_append (xs ys : List Event) : entered (xs ++ ys) = entered xs ++ entered ys := by
  induction xs with
  | nil => rfl
  | cons e rest ih => cases e <;> simp [entered, ih]

theorem exited_append (xs ys : List Event) : exited (xs ++ ys) = exited xs ++ exited ys := by
  induction xs with
  | nil => rfl
  | cons e rest ih => cases e <;> simp [exited, ih]

theorem entered_map_enter (os : List ObsPtr) (args : List Arg) (n : Nat) :
    entered (os.map (fun obs => Event.OnMethodEnter obs args n)) = os := by
  induction os with
  | nil => rfl
  | cons o rest ih => simp [entered, ih]

theorem entered_map_exit (os : List ObsPtr) (ret : Arg) :
    entered (os.map (fun obs => Event.OnMethodExit obs ret)) = [] := by
  induction os with
  | nil => rfl
  | cons o rest ih => simp [entered, ih]

theorem exited_map_enter (os : List ObsPtr) (args : List Arg) (n : Nat) :
    exited (os.map (fun obs => Event.OnMethodEnter obs args n)) = [] := by
  induction os with
  | nil => rfl
  | cons o rest ih => simp [exited, ih]

theorem exited_map_exit (os : List ObsPtr) (ret : Arg) :
    exited (os.map (fun obs => Event.OnMethodExit obs ret)) = os := by
  induction os with
  | nil => rfl
  | cons o rest ih => simp [exited, ih]

theorem entered_dispatch (r : Registry) (call : MatchKey) (args : List Arg) (ret : Arg) :
    entered (Dispatch r call args ret) = Lookup r call := by
  simp [Dispatch, entered_append, entered_map_enter, entered_map_exit, entered]

theorem exited_dispatch (r : Registry) (call : MatchKey) (args : List Arg) (ret : Arg) :
    exited (Dispatch r call args ret) = Lookup r call := by
  simp [Dispatch, exited_append, exited_map_enter, exited_map_exit, exited]

theorem key_eq_iff (m : Mem) (o : Obs) (d : MatchKey) :
    o.key m = d ↔ cstr m o.dll_Name = d.moduleName ∧ cstr m o.name_space = d.name_space ∧
      cstr m o.className = d.className ∧ cstr m o.methodName = d.methodName ∧
      o.methodCount = d.paramCount := by
  cases d
  simp [Obs.key]

theorem filter_key_of_all (regs : List Registration) (d : MatchKey)
    (h : ∀ reg ∈ regs, reg.object.key reg.mem = d) :
    regs.filter (fun reg => reg.object.key reg.mem = d) = regs := by
  rw [List.filter_eq_self]
  intro reg hr
  simp [h reg hr]

/-- C6: exact match only. Whatever was registered, an observer that at each of its
registrations differed from the identity of a call in the module, the namespace, the
class or the method (the strings its `Obs` pointers denote, compared by content) or in
`methodCount` has neither hook invoked for that call. -/
theorem Dispatch.exact_match_only (regs : List Registration) (obs : ObsPtr)
    (call : MatchKey) (args : List Arg) (ret : Arg)
    (h : ∀ reg ∈ regs, reg.obs = obs →
      cstr reg.mem reg.object.dll_Name ≠ call.moduleName ∨
      cstr reg.mem reg.object.name_space ≠ call.name_space ∨
      cstr reg.mem reg.object.className ≠ call.className ∨
      cstr reg.mem reg.object.methodName ≠ call.methodName ∨
      reg.object.methodCount ≠ call.paramCount) :
    invocations obs (Dispatch (registerAll Registry.empty regs) call args ret) = 0 := by
  have hn : obs ∉ Lookup (registerAll Registry.empty regs) call := by
    rw [lookup_registerAll]
    simp only [Registry.empty, Lookup, List.nil_append, List.mem_map, List.mem_filter,
      decide_eq_true_eq, not_exists, not_and]
    intro reg hboth hobs
    obtain ⟨hmem, hkey⟩ := hboth
    have hd := h reg hmem hobs
    rw [key_eq_iff] at hkey
    obtain ⟨k1, k2, k3, k4, k5⟩ := hkey
    rcases hd with d | d | d | d | d
    · exact d k1
    · exact d k2
    · exact d k3
    · exact d k4
    · exact d k5
  simp only [invocations, entered_dispatch, exited_dispatch, List.count_eq_zero_of_not_mem hn]

/-- Witness for C6: over `gameMem`, the observer at 200 is registered for the
two-parameter overload of `TakeDamage` and is not invoked for a call of the
one-parameter overload, for which the observer at 100 is registered. -/
theorem Dispatch.exact_match_only_witness :
    (∀ reg ∈ [(⟨gameMem, 100, takeDamageObs 1 1⟩ : Registration), ⟨gameMem, 200, takeDamageObs 1 2⟩],
      reg.obs = 200 →
      cstr reg.mem reg.object.dll_Name ≠ takeDamage.moduleName ∨
      cstr reg.mem reg.object.name_space ≠ takeDamage.name_space ∨
      cstr reg.mem reg.object.className ≠ takeDamage.className ∨
      cstr reg.mem reg.object.methodName ≠ takeDamage.methodName ∨
      reg.object.methodCount ≠ takeDamage.paramCount) ∧
    invocations 100 (Dispatch (registerAll Registry.empty
      [⟨gameMem, 100, takeDamageObs 1 1⟩, ⟨gameMem, 200, takeDamageObs 1 2⟩]) takeDamage
      [⟨[25, 0, 0, 0, 0, 0, 0, 0]⟩] ⟨[0, 0, 0, 0, 0, 0, 0, 0]⟩) = 2 ∧
    invocations 200 (Dispatch (registerAll Registry.empty
      [⟨gameMem, 100, takeDamageObs 1 1⟩, ⟨gameMem, 200, takeDamageObs 1 2⟩]) takeDamage
      [⟨[25, 0, 0, 0, 0, 0, 0, 0]⟩] ⟨[0, 0, 0, 0, 0, 0, 0, 0]⟩) = 0 :=
  ⟨by decide, by decide, Dispatch.exact_match_only _ 200 takeDamage _ _ (by decide)⟩

/-- C7: fan-out order. When observers O1..ON are registered, in that order, each with an
`Obs` whose four strings and `methodCount` are those of one descriptor, a call with
that identity runs the entry hooks of O1..ON in that order, then the body, then the
exit hooks of O1..ON in the same order; observers registered for the descriptor earlier
come before them, in their own order. -/
theorem Dispatch.fan_out_order (r : Registry) (regs : List Registration)
    (d : MatchKey) (args : List Arg) (ret : Arg)
    (h : ∀ reg ∈ regs,
      cstr reg.mem reg.object.dll_Name = d.moduleName ∧
      cstr reg.mem reg.object.name_space = d.name_space ∧
      cstr reg.mem reg.object.className = d.className ∧
      cstr reg.mem reg.object.methodName = d.methodName ∧
      reg.object.methodCount = d.paramCount) :
    Dispatch (registerAll Registry.empty regs) d args ret
      = (regs.map Registration.obs).map (fun obs => Event.OnMethodEnter obs args args.length)
        ++ [Event.body]
        ++ (regs.map Registration.obs).map (fun obs => Event.OnMethodExit obs ret) ∧
    entered (Dispatch (registerAll Registry.empty regs) d args ret) = regs.map Registration.obs ∧
    exited (Dispatch (registerAll Registry.empty regs) d args ret) = regs.map Registration.obs ∧
    entered (Dispatch (registerAll r regs) d args ret) = Lookup r d ++ regs.map Registration.obs ∧
    exited (Dispatch (registerAll r regs) d args ret) = Lookup r d ++ regs.map Registration.obs := by
  have hk : ∀ reg ∈ regs, reg.object.key reg.mem = d :=
    fun reg hr => (key_eq_iff reg.mem reg.object d).2 (h reg hr)
  have hl : ∀ r0 : Registry,
      Lookup (registerAll r0 regs) d = Lookup r0 d ++ regs.map Registration.obs := by
    intro r0
    rw [lookup_registerAll, filter_key_of_all regs d hk]
  have he : Lookup (registerAll Registry.empty regs) d = regs.map Registration.obs := by
    rw [hl]; rfl
  refine ⟨?_, ?_, ?_, ?_, ?_⟩
  · simp only [Dispatch, he]
  · rw [entered_dispatch, he]
  · rw [exited_dispatch, he]
  · rw [entered_dispatch, hl]
  · rw [exited_dispatch, hl]

/-- Witness for C7: over `gameMem`, the observers at 300, 100 and 200 are registered for
`TakeDamage`, the one at 300 twice and the one at 200 through the second copy of the
string "Game.dll". -/
theorem Dispatch.fan_out_order_witness :
    (∀ reg ∈ [(⟨gameMem, 300, takeDamageObs 1 1⟩ : Registration), ⟨gameMem, 100, takeDamageObs 1 1⟩,
        ⟨gameMem, 200, takeDamageObs 39 1⟩, ⟨gameMem, 300, takeDamageObs 1 1⟩],
      cstr reg.mem reg.object.dll_Name = takeDamage.moduleName ∧
      cstr reg.mem reg.object.name_space = takeDamage.name_space ∧
      cstr reg.mem reg.object.className = takeDamage.className ∧
      cstr reg.mem reg.object.methodName = takeDamage.methodName ∧
      reg.object.methodCount = takeDamage.paramCount) ∧
    entered (Dispatch (registerAll Registry.empty
      [⟨gameMem, 300, takeDamageObs 1 1⟩, ⟨gameMem, 100, takeDamageObs 1 1⟩,
        ⟨gameMem, 200, takeDamageObs 39 1⟩, ⟨gameMem, 300, takeDamageObs 1 1⟩]) takeDamage
      [⟨[25, 0, 0, 0, 0, 0, 0, 0]⟩] ⟨[0, 0, 0, 0, 0, 0, 0, 0]⟩) = [300, 100, 200, 300] ∧
    exited (Dispatch (registerAll Registry.empty
      [⟨gameMem, 300, takeDamageObs 1 1⟩, ⟨gameMem, 100, takeDamageObs 1 1⟩,
        ⟨gameMem, 200, takeDamageObs 39 1⟩, ⟨gameMem, 300, takeDamageObs 1 1⟩]) takeDamage
      [⟨[25, 0, 0, 0, 0, 0, 0, 0]⟩] ⟨[0, 0, 0, 0, 0, 0, 0, 0]⟩) = [300, 100, 200, 300] :=
  ⟨by decide,
    (Dispatch.fan_out_order Registry.empty _ takeDamage _ _ (by decide)).2.1,
    (Dispatch.fan_out_order Registry.empty _ takeDamage _ _ (by decide)).2.2.1⟩

/-- C8: registration always succeeds and appends. `HybridClrAddObs` is total and returns
only the new registry; the matching key of the observer is the four strings its `Obs`
pointers denote and its `methodCount`; the list of that key is the old list with the
observer at the end, a second registration of the same observer adds a second entry,
and the list of every other key is unchanged. -/
theorem HybridClrAddObs.appends (r : Registry) (reg : Registration) :
    reg.object.key reg.mem
      = ⟨cstr reg.mem reg.object.dll_Name, cstr reg.mem reg.object.name_space,
          cstr reg.mem reg.object.className, cstr reg.mem reg.object.methodName,
          reg.object.methodCount⟩ ∧
    Lookup (HybridClrAddObs r reg) (reg.object.key reg.mem)
      = Lookup r (reg.object.key reg.mem) ++ [reg.obs] ∧
    Lookup (HybridClrAddObs (HybridClrAddObs r reg) reg) (reg.object.key reg.mem)
      = Lookup r (reg.object.key reg.mem) ++ [reg.obs, reg.obs] ∧
    (∀ call : MatchKey, call ≠ reg.object.key reg.mem →
      Lookup (HybridClrAddObs r reg) call = Lookup r call) := by
  refine ⟨rfl, lookup_append_same r _ _, ?_, fun call hc => lookup_append_other r _ _ call hc⟩
  simp only [HybridClrAddObs]
  rw [lookup_append_same, lookup_append_same, List.append_assoc]
  rfl

/-- Witness for C8: over `gameMem`, registering the observer at 200 on the two-parameter
overload leaves the list of the one-parameter overload as it was. -/
theorem HybridClrAddObs.appends_witness :
    takeDamage ≠ (takeDamageObs 1 2).key gameMem ∧
    Lookup (HybridClrAddObs (HybridClrAddObs Registry.empty ⟨gameMem, 100, takeDamageObs 1 1⟩)
      ⟨gameMem, 200, takeDamageObs 1 2⟩) takeDamage
      = Lookup (HybridClrAddObs Registry.empty ⟨gameMem, 100, takeDamageObs 1 1⟩) takeDamage ∧
    Lookup (HybridClrAddObs Registry.empty ⟨gameMem, 100, takeDamageObs 1 1⟩) takeDamage = [100] :=
  ⟨by decide,
    (HybridClrAddObs.appends _ ⟨gameMem, 200, takeDamageObs 1 2⟩).2.2.2 takeDamage (by decide),
    by decide⟩

end HybridClr
